import Mathlib

/-!
Verification of the Edu-Translator translation service (src/services/geminiService.ts,
current variant with lazy credential check and bracket cleanup; src/unnamed/part_004
for the history log in the application component).

JavaScript strings are modelled as lists of characters (`Str`), since the
relevant operations (trim, toLowerCase, lexicographic comparison, concatenation)
act on the underlying character sequence.  Platform primitives (JSON.parse,
JSON.stringify, localStorage, Date.now, the remote model call) are modelled
explicitly: JSON values by the `Json` inductive, the storage slot by
`CacheBlob`, time by a `Nat` parameter, and the remote call by an `ApiOutcome`
parameter describing how the awaited call resolves.
-/

/-- A JavaScript string: its sequence of characters. -/
abbrev Str := List Char

/-- Character list of a Lean string literal. -/
def chars (s : String) : Str := s.data

/-- Whitespace recognised by the trim operation. -/
def wsChar (c : Char) : Bool :=
  c = ' ' || c = '\t' || c = '\n' || c = '\r' || c = '\x0b' || c = '\x0c'

/-- Model of JavaScript String.prototype.trim: drop leading and trailing whitespace. -/
def jsTrim (s : Str) : Str :=
  ((s.dropWhile wsChar).reverse.dropWhile wsChar).reverse

/-- Model of JavaScript String.prototype.toLowerCase (ASCII case folding,
which is all the repository relies on). -/
def jsToLower (s : Str) : Str := s.map Char.toLower

/-- Model of JavaScript String.prototype.includes: substring test. -/
def strIncludes (s pat : Str) : Bool :=
  s.tails.any (fun t => pat.isPrefixOf t)

/-- `text.trim().toLowerCase()`, the normalisation applied to query text by
`generateCacheKey` (geminiService.ts) and to `originalText` by the history
duplicate test (part_004). -/
def normText (s : Str) : Str := jsToLower (jsTrim s)

/-- Runtime JSON values, the output domain of the platform JSON.parse.
Numbers are restricted to integers, which covers every payload the
repository produces or consumes. -/
inductive Json where
  | null : Json
  | bool (b : Bool) : Json
  | num (n : Int) : Json
  | str (s : Str) : Json
  | arr (xs : List Json) : Json
  | obj (fields : List (Str × Json)) : Json

/-- Escaping of one character inside a JSON string literal. -/
def escapeChar (c : Char) : Str :=
  if c = '"' then ['\\', '"'] else if c = '\\' then ['\\', '\\'] else [c]

/-- A quoted, escaped JSON string literal. -/
def quoteStr (s : Str) : Str :=
  '"' :: s.foldr (fun c acc => escapeChar c ++ acc) ['"']

/-- Model of the platform JSON.stringify on runtime JSON values.  Object
fields are emitted in insertion order, as JavaScript does. -/
def Json.stringify : Json → Str
  | .null => chars "null"
  | .bool true => chars "true"
  | .bool false => chars "false"
  | .num n => chars (toString n)
  | .str s => quoteStr s
  | .arr xs => '[' :: (List.intercalate (chars ",") (stringifyList xs) ++ [']'])
  | .obj fs => '\x7b' :: (List.intercalate (chars ",") (stringifyObj fs) ++ ['\x7d'])
where
  stringifyList : List Json → List Str
    | [] => []
    | x :: xs => Json.stringify x :: stringifyList xs
  stringifyObj : List (Str × Json) → List Str
    | [] => []
    | (k, v) :: fs => (quoteStr k ++ chars ":" ++ Json.stringify v) :: stringifyObj fs

/-- Whitespace skipped between JSON tokens. -/
def jsonWs (c : Char) : Bool := c = ' ' || c = '\t' || c = '\n' || c = '\r'

/-- Digit run of a JSON number. -/
def splitDigits (cs : Str) : Str × Str :=
  (cs.takeWhile Char.isDigit, cs.dropWhile Char.isDigit)

/-- Value of a digit run. -/
def digitsToNat (ds : Str) : Nat := ds.foldl (fun n d => 10 * n + (d.toNat - 48)) 0

/-- Body of a JSON string literal after the opening quote: returns the decoded
characters and the input following the closing quote. -/
def parseStringBody : Nat → Str → Option (Str × Str)
  | 0, _ => none
  | _ + 1, [] => none
  | fuel + 1, c :: rest =>
    if c = '"' then some ([], rest)
    else if c = '\\' then
      match rest with
      | [] => none
      | d :: rest2 =>
        let e := if d = 'n' then '\n' else if d = 't' then '\t' else if d = 'r' then '\r' else d
        match parseStringBody fuel rest2 with
        | some (s, r) => some (e :: s, r)
        | none => none
    else
      match parseStringBody fuel rest with
      | some (s, r) => some (c :: s, r)
      | none => none

mutual

/-- One JSON value, fuel-indexed. -/
def parseVal : Nat → Str → Option (Json × Str)
  | 0, _ => none
  | fuel + 1, cs =>
    match cs.dropWhile jsonWs with
    | [] => none
    | c :: rest =>
      if c = 'n' then
        if (chars "ull").isPrefixOf rest then some (.null, rest.drop 3) else none
      else if c = 't' then
        if (chars "rue").isPrefixOf rest then some (.bool true, rest.drop 3) else none
      else if c = 'f' then
        if (chars "alse").isPrefixOf rest then some (.bool false, rest.drop 4) else none
      else if c = '"' then
        match parseStringBody (rest.length + 1) rest with
        | some (s, r) => some (.str s, r)
        | none => none
      else if c = '[' then
        match rest.dropWhile jsonWs with
        | ']' :: r => some (.arr [], r)
        | _ => parseElems fuel rest []
      else if c = '\x7b' then
        match rest.dropWhile jsonWs with
        | '\x7d' :: r => some (.obj [], r)
        | _ => parseMembers fuel rest []
      else if c = '-' then
        match splitDigits rest with
        | ([], _) => none
        | (ds, r) => some (.num (-(digitsToNat ds : Int)), r)
      else if c.isDigit then
        match splitDigits (c :: rest) with
        | ([], _) => none
        | (ds, r) => some (.num (digitsToNat ds), r)
      else none

/-- Comma-separated array elements up to the closing bracket. -/
def parseElems : Nat → Str → List Json → Option (Json × Str)
  | 0, _, _ => none
  | fuel + 1, cs, acc =>
    match parseVal fuel cs with
    | none => none
    | some (v, r) =>
      match r.dropWhile jsonWs with
      | ',' :: r2 => parseElems fuel r2 (acc ++ [v])
      | ']' :: r2 => some (.arr (acc ++ [v]), r2)
      | _ => none

/-- Comma-separated object members up to the closing brace. -/
def parseMembers : Nat → Str → List (Str × Json) → Option (Json × Str)
  | 0, _, _ => none
  | fuel + 1, cs, acc =>
    match cs.dropWhile jsonWs with
    | '"' :: rest =>
      match parseStringBody (rest.length + 1) rest with
      | none => none
      | some (k, r) =>
        match r.dropWhile jsonWs with
        | ':' :: r2 =>
          match parseVal fuel r2 with
          | none => none
          | some (v, r3) =>
            match r3.dropWhile jsonWs with
            | ',' :: r4 => parseMembers fuel r4 (acc ++ [(k, v)])
            | '\x7d' :: r4 => some (.obj (acc ++ [(k, v)]), r4)
            | _ => none
        | _ => none
    | _ => none

end

/-- Model of the platform JSON.parse: `some` on a well-formed document
(restricted to the integer-number subset), `none` where JSON.parse throws. -/
def jsonParse (s : Str) : Option Json :=
  match parseVal (2 * s.length + 2) s with
  | some (j, r) => if (r.dropWhile jsonWs).isEmpty then some j else none
  | none => none

/-! ## The response cache (geminiService.ts) -/

/-- One cache entry: `{ result, timestamp: Date.now() }`. -/
structure CacheEntry where
  result : Json
  timestamp : Nat

/-- The persisted mapping `Record<string, CacheEntry>`: an association list in
key insertion order, mirroring JavaScript object key order. -/
abbrev Cache := List (Str × CacheEntry)

/-- `cache[key]` read: the entry stored under `key`, if any. -/
def cacheLookup (c : Cache) (k : Str) : Option CacheEntry :=
  (c.find? (fun e => e.1 == k)).map (fun e => e.2)

/-- `cache[key] = v`: overwrite in place if the key exists, else append
(JavaScript object insertion order). -/
def cacheInsert (c : Cache) (k : Str) (v : CacheEntry) : Cache :=
  if c.any (fun e => e.1 == k) then
    c.map (fun e => if e.1 == k then (k, v) else e)
  else c ++ [(k, v)]

/-- `delete cache[key]`. -/
def cacheErase (c : Cache) (k : Str) : Cache :=
  c.filter (fun e => !(e.1 == k))

/-- `keys.reduce((a, b) => cache[a].timestamp < cache[b].timestamp ? a : b)`:
since every key of the mapping is unique, folding the (key, entry) pairs and
projecting the key is the same computation. -/
def oldestKey (e0 : Str × CacheEntry) (rest : Cache) : Str :=
  (rest.foldl (fun a b => if a.2.timestamp < b.2.timestamp then a else b) e0).1

/-- `MAX_CACHE_SIZE` in geminiService.ts. -/
def MAX_CACHE_SIZE : Nat := 100

/-- The pure core of `setCache`: insert the entry, then if the mapping holds
more than `MAX_CACHE_SIZE` keys, delete the key whose entry has the smallest
timestamp (ties resolved as the reduce does). -/
def putCache (c : Cache) (k : Str) (result : Json) (now : Nat) : Cache :=
  let c1 := cacheInsert c k ⟨result, now⟩
  if MAX_CACHE_SIZE < c1.length then
    match c1 with
    | [] => c1
    | e :: es => cacheErase c1 (oldestKey e es)
  else c1

/-- The persisted cache blob in the local storage slot: absent (`getItem`
returns null), a string JSON.parse throws on, or a string encoding a cache. -/
inductive CacheBlob where
  | absent : CacheBlob
  | corrupt : CacheBlob
  | valid (c : Cache) : CacheBlob

/-- `getCache` in geminiService.ts: `JSON.parse(localStorage.getItem(KEY) || "\x7b\x7d")`
inside try/catch — an absent slot parses as the empty mapping, a throwing
parse is caught and yields the empty mapping. -/
def getCache : CacheBlob → Cache
  | .valid c => c
  | _ => []

/-- `setCache` in geminiService.ts: read the blob, insert with the current
timestamp, evict if oversized, and write back; a throwing write
(`writeOk = false`) is swallowed with a warning, leaving the slot unchanged. -/
def setCache (blob : CacheBlob) (k : Str) (result : Json) (now : Nat) (writeOk : Bool) : CacheBlob :=
  let c1 := putCache (getCache blob) k result now
  if writeOk then .valid c1 else blob

/-- `generateCacheKey` in geminiService.ts:
normalized text, then "_to_", then the sorted language codes joined by ",".
`[...langs].sort()` is the JavaScript default sort, i.e. lexicographic
comparison of the code strings. -/
def generateCacheKey (text : Str) (langs : List Str) : Str :=
  let normalizedText := normText text
  let sortedLangs := List.intercalate (chars ",") (List.insertionSort (fun a b : Str => a ≤ b) langs)
  normalizedText ++ chars "_to_" ++ sortedLangs

/-! ## Response cleanup (translateAndAnalyze post-processing) -/

/-- Opening bracket class of `bracketRegex`. -/
def isOpenB (c : Char) : Bool := c = '(' || c = '（'

/-- Closing bracket class of `bracketRegex`. -/
def isCloseB (c : Char) : Bool := c = ')' || c = '）'

/-- Left-to-right scan of `text.replace(/[\(\（][^\)\）]+[\)\）]/g, "")`:
at an opening bracket, if some closing bracket follows with at least one
interleaving character, the leftmost such match is removed and scanning
resumes after it; otherwise the character is kept.  Fuel is the input length;
each step consumes at least one character. -/
def stripBracketsAux : Nat → Str → Str
  | 0, cs => cs
  | _ + 1, [] => []
  | fuel + 1, c :: rest =>
    if isOpenB c then
      match rest.dropWhile (fun d => !isCloseB d) with
      | [] => c :: stripBracketsAux fuel rest
      | _ :: tail =>
        if (rest.takeWhile (fun d => !isCloseB d)).isEmpty then
          c :: stripBracketsAux fuel rest
        else stripBracketsAux fuel tail
    else c :: stripBracketsAux fuel rest

/-- `s.replace(bracketRegex, "")`. -/
def stripBrackets (s : Str) : Str := stripBracketsAux s.length s

/-- Member lookup on a JSON object field list. -/
def objLookup (fs : List (Str × Json)) (name : Str) : Option Json :=
  (fs.find? (fun f => f.1 == name)).map (fun f => f.2)

/-- Member update on a JSON object field list: in place if present
(as the object spread `{...s, text: v}` keeps the original position),
else appended. -/
def objSet (fs : List (Str × Json)) (name : Str) (v : Json) : List (Str × Json) :=
  if fs.any (fun f => f.1 == name) then
    fs.map (fun f => if f.1 == name then (name, v) else f)
  else fs ++ [(name, v)]

/-- JavaScript truthiness of a runtime JSON value. -/
def truthy : Json → Bool
  | .null => false
  | .bool b => b
  | .num n => n != 0
  | .str s => !s.isEmpty
  | .arr _ => true
  | .obj _ => true

/-- `s => ({ ...s, text: s.text.replace(bracketRegex, "") })` on a runtime
value: member access on null throws, a missing or non-string `text` makes
`.replace` throw, otherwise the `text` member is rewritten in place. -/
def cleanSegment : Json → Except Str Json
  | .null => .error (chars "TypeError: cannot read properties of null")
  | .obj fs =>
    match objLookup fs (chars "text") with
    | some (.str t) => .ok (.obj (objSet fs (chars "text") (.str (stripBrackets t))))
    | some _ => .error (chars "TypeError: replace is not a function")
    | none => .error (chars "TypeError: cannot read properties of undefined")
  | _ => .error (chars "TypeError: cannot read properties of undefined")

/-- `if (result.f) { result.f = result.f.map(cleanSegment) }` on a runtime
value: reading a member of null throws; a falsy or absent member skips the
cleanup; `.map` on a truthy non-array throws. -/
def cleanupField (r : Json) (name : Str) : Except Str Json :=
  match r with
  | .null => .error (chars "TypeError: cannot read properties of null")
  | .obj fs =>
    match objLookup fs name with
    | some v =>
      if truthy v then
        match v with
        | .arr xs => (xs.mapM cleanSegment).map (fun ys => Json.obj (objSet fs name (.arr ys)))
        | _ => .error (chars "TypeError: map is not a function")
      else .ok r
    | none => .ok r
  | _ => .ok r

/-- The client-side cleanup block of translateAndAnalyze: first the `jp`
segment list, then the `zh` segment list of the (possibly updated) result. -/
def cleanupResult (r : Json) : Except Str Json :=
  match cleanupField r (chars "jp") with
  | .error m => .error m
  | .ok r1 => cleanupField r1 (chars "zh")

/-! ## The translation request orchestrator -/

/-- Resolution of the awaited remote model call: the promise rejects with an
error carrying `msg`, or resolves to a response whose `text` member is the
given optional string. -/
inductive ApiOutcome where
  | throws (msg : Str) : ApiOutcome
  | returns (text : Option Str) : ApiOutcome

/-- The error thrown by `getAI` when the credential is absent. -/
def missingKeyMsg : Str :=
  chars "GEMINI_API_KEY is not set. Please configure it in the environment."

/-- Model of the platform SyntaxError message raised by a failing JSON.parse. -/
def syntaxErrorMsg : Str := chars "SyntaxError: unexpected token in JSON"

/-- `msg.includes("quota") || msg.includes("429") || msg.includes("limit")`
on the lowercased message. -/
def isRateLimitMsg (msg : Str) : Bool :=
  let m := jsToLower msg
  strIncludes m (chars "quota") || strIncludes m (chars "429") || strIncludes m (chars "limit")

/-- The catch block of translateAndAnalyze: quota/429/limit messages are
rethrown as "RATE_LIMIT", everything else is rethrown unchanged. -/
def classifyMsg (msg : Str) : Str :=
  if isRateLimitMsg msg then chars "RATE_LIMIT" else msg

/-- `response.text?.trim() || "\x7b\x7d"`: an absent text, or one that trims to
the empty (falsy) string, is replaced by an empty-object document. -/
def responseJsonStr : Option Str → Str
  | some t => if (jsTrim t).isEmpty then chars "\x7b\x7d" else jsTrim t
  | none => chars "\x7b\x7d"

/-- A successful return of translateAndAnalyze, together with the state of the
persisted blob afterwards and how many times the remote model was invoked. -/
structure TAOk where
  result : Json
  fromCache : Bool
  blob : CacheBlob
  modelCalls : Nat

/-- Outcome of one translateAndAnalyze call: a return value or a raised error,
each recording the blob state and the number of model invocations. -/
inductive TAOutcome where
  | ok (r : TAOk) : TAOutcome
  | error (msg : Str) (blob : CacheBlob) (modelCalls : Nat) : TAOutcome

/-- Model invocations of an outcome. -/
def TAOutcome.calls : TAOutcome → Nat
  | .ok r => r.modelCalls
  | .error _ _ n => n

/-- Blob state after an outcome. -/
def TAOutcome.blobAfter : TAOutcome → CacheBlob
  | .ok r => r.blob
  | .error _ b _ => b

/-- `translateAndAnalyze` (geminiService.ts): compute the cache key, return a
hit directly with `fromCache = true`; on a miss obtain the client (throwing if
the credential is absent), await the model call, parse `response.text`, run
the bracket cleanup, store the result via setCache, and return it with
`fromCache = false`.  Every error raised inside the try block passes through
the classifying catch. -/
def translateAndAnalyze (text : Str) (targetLangs : List Str) (blob : CacheBlob)
    (apiKey : Option Str) (api : ApiOutcome) (now : Nat) (writeOk : Bool) : TAOutcome :=
  let cacheKey := generateCacheKey text targetLangs
  match cacheLookup (getCache blob) cacheKey with
  | some entry => .ok ⟨entry.result, true, blob, 0⟩
  | none =>
    match apiKey with
    | none => .error (classifyMsg missingKeyMsg) blob 0
    | some _ =>
      match api with
      | .throws msg => .error (classifyMsg msg) blob 1
      | .returns text? =>
        match jsonParse (responseJsonStr text?) with
        | none => .error (classifyMsg syntaxErrorMsg) blob 1
        | some j =>
          match cleanupResult j with
          | .error m => .error (classifyMsg m) blob 1
          | .ok result => .ok ⟨result, false, setCache blob cacheKey result now writeOk, 1⟩

/-- `response.text || "[]"` in recognizeHandwriting: an absent or empty
(falsy) text is replaced by an empty-array document. -/
def handwritingJsonStr : Option Str → Str
  | some t => if t.isEmpty then chars "[]" else t
  | none => chars "[]"

/-- `recognizeHandwriting` (geminiService.ts): inside one try/catch, obtain the
client, await the model call, and parse `response.text || "[]"`; any raised
error is caught and the empty array is returned. -/
def recognizeHandwriting (apiKey : Option Str) (api : ApiOutcome) : Json :=
  match apiKey with
  | none => .arr []
  | some _ =>
    match api with
    | .throws _ => .arr []
    | .returns text? =>
      match jsonParse (handwritingJsonStr text?) with
      | none => .arr []
      | some j => j

/-! ## The history log (part_004, handleTranslate) -/

/-- A history entry as built in handleTranslate; `sourceLang` holds the
`detectedLanguage` member of the result. -/
structure HistoryItem where
  id : Str
  timestamp : Nat
  originalText : Str
  sourceLang : Option Json
  results : Json

/-- Member of a runtime JSON object, absent otherwise. -/
def jsonField (j : Json) (name : Str) : Option Json :=
  match j with
  | .obj fs => objLookup fs name
  | _ => none

/-- The duplicate test of handleTranslate: some history item whose normalized
original text equals the normalized input and whose serialized results are
byte-identical to the serialized new result. -/
def isDuplicate (history : List HistoryItem) (inputText : Str) (result : Json) : Bool :=
  history.any (fun h =>
    normText h.originalText == normText inputText &&
    Json.stringify h.results == Json.stringify result)

/-- The history update of handleTranslate after a successful translation:
a duplicate leaves the state untouched; otherwise the new item is prepended
to the first 49 existing items (`[newItem, ...prev.slice(0, 49)]`). -/
def updateHistory (history : List HistoryItem) (inputText : Str) (result : Json)
    (newId : Str) (now : Nat) : List HistoryItem :=
  if isDuplicate history inputText result then history
  else ⟨newId, now, inputText, jsonField result (chars "detectedLanguage"), result⟩ :: history.take 49

/-! ## Typed view of a well-shaped TranslationResult (src/types.ts) -/

/-- `PhoneticSegment` of src/types.ts. -/
structure PhoneticSegment where
  text : Str
  ruby : Option Str

/-- `TranslationResult` of src/types.ts: requested languages populated,
others absent. -/
structure TranslationResult where
  detectedLanguage : Str
  en : Option Str
  jp : Option (List PhoneticSegment)
  zh : Option (List PhoneticSegment)
  mm : Option Str
  vi : Option Str

/-- Runtime JSON value of a segment: `text` required, `ruby` optional. -/
def encodeSegment (s : PhoneticSegment) : Json :=
  .obj ((chars "text", .str s.text) :: (match s.ruby with
    | some r => [(chars "ruby", .str r)]
    | none => []))

/-- Optional plain-string member. -/
def optStrField (name : Str) : Option Str → List (Str × Json)
  | some v => [(name, .str v)]
  | none => []

/-- Optional segment-list member. -/
def optSegField (name : Str) : Option (List PhoneticSegment) → List (Str × Json)
  | some l => [(name, .arr (l.map encodeSegment))]
  | none => []

/-- Runtime JSON value of a well-shaped TranslationResult. -/
def encodeResult (t : TranslationResult) : Json :=
  .obj ((chars "detectedLanguage", .str t.detectedLanguage) ::
    (optStrField (chars "en") t.en ++ optSegField (chars "jp") t.jp ++
     optSegField (chars "zh") t.zh ++ optStrField (chars "mm") t.mm ++
     optStrField (chars "vi") t.vi))

/-- The cleanup on the typed view: brackets stripped from `text`, `ruby` kept. -/
def cleanSegmentT (s : PhoneticSegment) : PhoneticSegment :=
  ⟨stripBrackets s.text, s.ruby⟩

/-- The cleanup on the typed view of a whole result. -/
def cleanResultT (t : TranslationResult) : TranslationResult :=
  { t with jp := t.jp.map (List.map cleanSegmentT), zh := t.zh.map (List.map cleanSegmentT) }

/-- The five language codes of the `Language` union type (src/types.ts). -/
def languageCodes : List Str :=
  [chars "en", chars "jp", chars "mm", chars "vi", chars "zh"]

/-- Every sorted duplicate-free list of 2 or 3 language codes. -/
def sortedLangLists : List (List Str) :=
  [[chars "en", chars "jp"], [chars "en", chars "mm"], [chars "en", chars "vi"],
   [chars "en", chars "zh"], [chars "jp", chars "mm"], [chars "jp", chars "vi"],
   [chars "jp", chars "zh"], [chars "mm", chars "vi"], [chars "mm", chars "zh"],
   [chars "vi", chars "zh"],
   [chars "en", chars "jp", chars "mm"], [chars "en", chars "jp", chars "vi"],
   [chars "en", chars "jp", chars "zh"], [chars "en", chars "mm", chars "vi"],
   [chars "en", chars "mm", chars "zh"], [chars "en", chars "vi", chars "zh"],
   [chars "jp", chars "mm", chars "vi"], [chars "jp", chars "mm", chars "zh"],
   [chars "jp", chars "vi", chars "zh"], [chars "mm", chars "vi", chars "zh"]]

/-! ## Cache key lemmas -/

/-- Sorting is invariant under permutation of the input. -/
theorem insertionSort_eq_of_perm (L1 L2 : List Str) (h : L1.Perm L2) :
    List.insertionSort (fun a b : Str => a ≤ b) L1
      = List.insertionSort (fun a b : Str => a ≤ b) L2 :=
  List.eq_of_perm_of_sorted
    (((List.perm_insertionSort _ L1).trans h).trans (List.perm_insertionSort _ L2).symm)
    (List.sorted_insertionSort _ L1) (List.sorted_insertionSort _ L2)

/-- The cache key does not depend on the order of the language list. -/
theorem generateCacheKey_perm (text : Str) (L1 L2 : List Str) (h : L1.Perm L2) :
    generateCacheKey text L1 = generateCacheKey text L2 := by
  unfold generateCacheKey
  rw [insertionSort_eq_of_perm L1 L2 h]

/-- The cache key depends on the text only through its normalisation. -/
theorem generateCacheKey_norm (t1 t2 : Str) (L : List Str) (h : normText t1 = normText t2) :
    generateCacheKey t1 L = generateCacheKey t2 L := by
  unfold generateCacheKey
  rw [h]

/-- C2. Cache key derivation: the key is the trimmed, lowercased text,
then "_to_", then the language codes sorted lexicographically and joined
with commas; consequently it is invariant under permuting the language list
and under changes of the text that preserve its trimmed lowercased form
(surrounding whitespace, letter case). -/
theorem claim_C2 :
    (∀ (text : Str) (langs : List Str), ∃ s : List Str, s.Perm langs ∧
       List.Sorted (fun a b : Str => a ≤ b) s ∧
       generateCacheKey text langs = normText text ++ chars "_to_" ++ List.intercalate (chars ",") s) ∧
    (∀ (text : Str) (L1 L2 : List Str), L1.Perm L2 →
       generateCacheKey text L1 = generateCacheKey text L2) ∧
    (∀ (t1 t2 : Str) (langs : List Str), normText t1 = normText t2 →
       generateCacheKey t1 langs = generateCacheKey t2 langs) :=
  ⟨fun text langs => ⟨List.insertionSort (fun a b : Str => a ≤ b) langs,
     List.perm_insertionSort _ langs, List.sorted_insertionSort _ langs, rfl⟩,
   generateCacheKey_perm, generateCacheKey_norm⟩

/-- Witness for C2 at concrete inputs, including the order-invariance example
cacheKey(text, [en, jp]) == cacheKey(text, [jp, en]). -/
theorem claim_C2_witness :
    generateCacheKey (chars "Hello") [chars "en", chars "jp"]
      = generateCacheKey (chars " hello ") [chars "jp", chars "en"] :=
  (claim_C2.2.2 (chars "Hello") (chars " hello ") [chars "en", chars "jp"] (by decide)).trans
    (claim_C2.2.1 (chars " hello ") [chars "en", chars "jp"] [chars "jp", chars "en"] (by decide))

/-- C1. Cache idempotence: after a call that returned a result and whose cache
write succeeded (the entry for the derived key is stored in the resulting
blob with that result), a second call with text equal modulo surrounding
whitespace and letter case and any permutation of the language list returns
`fromCache = true` with a deep-equal result, leaves the blob unchanged, and
does not invoke the external model (zero model calls). -/
theorem claim_C1 (t1 t2 : Str) (L1 L2 : List Str) (blob : CacheBlob)
    (k1 k2 : Option Str) (api1 api2 : ApiOutcome) (now1 now2 : Nat) (w1 w2 : Bool)
    (r : TAOk) (ts : Nat)
    (hok : translateAndAnalyze t1 L1 blob k1 api1 now1 w1 = .ok r)
    (hstored : cacheLookup (getCache r.blob) (generateCacheKey t1 L1) = some ⟨r.result, ts⟩)
    (hnorm : normText t2 = normText t1) (hperm : L2.Perm L1) :
    translateAndAnalyze t2 L2 r.blob k2 api2 now2 w2 = .ok ⟨r.result, true, r.blob, 0⟩ := by
  have hkey : generateCacheKey t2 L2 = generateCacheKey t1 L1 :=
    (generateCacheKey_perm t2 L2 L1 hperm).trans (generateCacheKey_norm t2 t1 L1 hnorm)
  simp only [translateAndAnalyze, hkey, hstored]

/-- Witness for C1: a first live call populates the cache; the second call —
whitespace/case-perturbed text, permuted languages, a failing network and a
failing write — still answers from the cache with zero model calls. -/
theorem claim_C1_witness :
    translateAndAnalyze (chars " hi ") [chars "en", chars "jp"]
      (CacheBlob.valid [(generateCacheKey (chars "Hi") [chars "jp", chars "en"],
        ⟨Json.obj [(chars "detectedLanguage", Json.str (chars "en"))], 0⟩)])
      (some (chars "k2")) (.throws (chars "network down")) 9 false
    = .ok ⟨Json.obj [(chars "detectedLanguage", Json.str (chars "en"))], true,
        CacheBlob.valid [(generateCacheKey (chars "Hi") [chars "jp", chars "en"],
          ⟨Json.obj [(chars "detectedLanguage", Json.str (chars "en"))], 0⟩)], 0⟩ :=
  claim_C1 (chars "Hi") (chars " hi ") [chars "jp", chars "en"] [chars "en", chars "jp"]
    .absent (some (chars "k")) (some (chars "k2"))
    (.returns (some (chars "\x7b\"detectedLanguage\":\"en\"\x7d"))) (.throws (chars "network down"))
    0 9 true false
    ⟨Json.obj [(chars "detectedLanguage", Json.str (chars "en"))], false,
      CacheBlob.valid [(generateCacheKey (chars "Hi") [chars "jp", chars "en"],
        ⟨Json.obj [(chars "detectedLanguage", Json.str (chars "en"))], 0⟩)], 1⟩
    0 rfl rfl rfl (by decide)

/-! ## Eviction lemmas -/

/-- The reduce over the entries returns one of the entries. -/
theorem oldestPair_mem (e0 : Str × CacheEntry) (rest : Cache) :
    (rest.foldl (fun a b => if a.2.timestamp < b.2.timestamp then a else b) e0) ∈ e0 :: rest := by
  induction rest generalizing e0 with
  | nil => simp
  | cons b bs ih =>
    simp only [List.foldl_cons]
    have h := ih (if e0.2.timestamp < b.2.timestamp then e0 else b)
    rcases List.mem_cons.1 h with h1 | h1
    · rw [h1]
      split
      · exact List.mem_cons_self _ _
      · exact List.mem_cons.2 (Or.inr (List.mem_cons_self _ _))
    · exact List.mem_cons.2 (Or.inr (List.mem_cons.2 (Or.inr h1)))

/-- The reduce over the entries attains the minimum timestamp. -/
theorem oldestPair_min (e0 : Str × CacheEntry) (rest : Cache) :
    ∀ p ∈ e0 :: rest,
      (rest.foldl (fun a b => if a.2.timestamp < b.2.timestamp then a else b) e0).2.timestamp
        ≤ p.2.timestamp := by
  induction rest generalizing e0 with
  | nil =>
    intro p hp
    rcases List.mem_cons.1 hp with h | h
    · rw [h]; simp
    · cases h
  | cons b bs ih =>
    intro p hp
    simp only [List.foldl_cons]
    have hinit : (if e0.2.timestamp < b.2.timestamp then e0 else b).2.timestamp ≤ e0.2.timestamp
        ∧ (if e0.2.timestamp < b.2.timestamp then e0 else b).2.timestamp ≤ b.2.timestamp := by
      split <;> omega
    have hres := ih (if e0.2.timestamp < b.2.timestamp then e0 else b)
      _ (List.mem_cons_self _ _)
    rcases List.mem_cons.1 hp with h | h
    · subst h; omega
    · rcases List.mem_cons.1 h with h2 | h2
      · subst h2; omega
      · exact ih _ p (List.mem_cons.2 (Or.inr h2))

/-- Inserting a fresh key appends the entry. -/
theorem cacheInsert_fresh (c : Cache) (k : Str) (v : CacheEntry)
    (h : ∀ e ∈ c, e.1 ≠ k) : cacheInsert c k v = c ++ [(k, v)] := by
  unfold cacheInsert
  rw [if_neg]
  simp only [List.any_eq_true, beq_iff_eq, not_exists, not_and]
  intro e he
  exact h e he

/-- Inserting grows the mapping by at most one entry. -/
theorem cacheInsert_length_le (c : Cache) (k : Str) (v : CacheEntry) :
    (cacheInsert c k v).length ≤ c.length + 1 := by
  unfold cacheInsert
  split
  · rw [List.length_map]; omega
  · rw [List.length_append]; simp

/-- Lookup at the head entry. -/
theorem cacheLookup_cons_pos (a : Str × CacheEntry) (as : Cache) (k : Str) (h : a.1 = k) :
    cacheLookup (a :: as) k = some a.2 := by
  unfold cacheLookup
  rw [@List.find?_cons_of_pos (Str × CacheEntry) (fun e => e.1 == k) a as (beq_iff_eq.2 h)]
  rfl

/-- Lookup skips a head entry with a different key. -/
theorem cacheLookup_cons_neg (a : Str × CacheEntry) (as : Cache) (k : Str) (h : a.1 ≠ k) :
    cacheLookup (a :: as) k = cacheLookup as k := by
  unfold cacheLookup
  rw [List.find?_cons_of_neg]
  simp [h]

/-- Deleting a key removes the entry stored at it. -/
theorem cacheLookup_erase_self (c : Cache) (k : Str) :
    cacheLookup (cacheErase c k) k = none := by
  induction c with
  | nil => rfl
  | cons a as ih =>
    by_cases h : a.1 = k
    · rw [cacheErase, List.filter_cons_of_neg (by simp [h])]
      exact ih
    · rw [cacheErase, List.filter_cons_of_pos (by simp [h])]
      rw [show List.filter (fun e => !(e.1 == k)) as = cacheErase as k from rfl]
      rw [cacheLookup_cons_neg _ _ _ h]
      exact ih

/-- Deleting one key leaves lookups of other keys unchanged. -/
theorem cacheLookup_erase_ne (c : Cache) (k k2 : Str) (h : k2 ≠ k) :
    cacheLookup (cacheErase c k) k2 = cacheLookup c k2 := by
  induction c with
  | nil => rfl
  | cons a as ih =>
    by_cases ha : a.1 = k
    · rw [cacheErase, List.filter_cons_of_neg (by simp [ha])]
      rw [cacheLookup_cons_neg a as k2 (fun hx => h ((hx ▸ ha : k2 = k)))]
      exact ih
    · rw [cacheErase, List.filter_cons_of_pos (by simp [ha])]
      rw [show List.filter (fun e => !(e.1 == k)) as = cacheErase as k from rfl]
      by_cases ha2 : a.1 = k2
      · rw [cacheLookup_cons_pos a _ k2 ha2, cacheLookup_cons_pos a as k2 ha2]
      · rw [cacheLookup_cons_neg a _ k2 ha2, cacheLookup_cons_neg a as k2 ha2]
        exact ih

/-- Deleting a present key from a mapping with unique keys removes exactly
one entry. -/
theorem cacheErase_length (c : Cache) (p : Str × CacheEntry) (hp : p ∈ c)
    (hnd : (c.map (fun e => e.1)).Nodup) : (cacheErase c p.1).length + 1 = c.length := by
  induction c with
  | nil => cases hp
  | cons a as ih =>
    rcases List.mem_cons.1 hp with h | h
    · subst h
      have hout : ∀ e ∈ as, (fun e => !(e.1 == p.1)) e = true := by
        intro e he
        have hnotin : p.1 ∉ as.map (fun e => e.1) := (List.nodup_cons.1 hnd).1
        simp only [Bool.not_eq_true', beq_eq_false_iff_ne, ne_eq]
        intro hx
        exact hnotin (hx ▸ List.mem_map_of_mem _ he)
      rw [cacheErase, List.filter_cons_of_neg (by simp), List.filter_eq_self.2 hout]
      simp
    · by_cases ha : a.1 = p.1
      · have hnotin : p.1 ∉ as.map (fun e => e.1) := ha ▸ (List.nodup_cons.1 hnd).1
        exact absurd (List.mem_map_of_mem _ h) hnotin
      · have := ih h (List.nodup_cons.1 hnd).2
        rw [cacheErase, List.filter_cons_of_pos (by simp [ha])]
        rw [show List.filter (fun e => !(e.1 == p.1)) as = cacheErase as p.1 from rfl]
        simp only [List.length_cons]
        omega

/-- Looking up the key of a stored entry in a mapping with unique keys
returns that entry. -/
theorem cacheLookup_mem (c : Cache) (p : Str × CacheEntry) (hp : p ∈ c)
    (hnd : (c.map (fun e => e.1)).Nodup) : cacheLookup c p.1 = some p.2 := by
  induction c with
  | nil => cases hp
  | cons a as ih =>
    rcases List.mem_cons.1 hp with h | h
    · subst h
      exact cacheLookup_cons_pos p as p.1 rfl
    · by_cases ha : a.1 = p.1
      · have hnotin : p.1 ∉ as.map (fun e => e.1) := ha ▸ (List.nodup_cons.1 hnd).1
        exact absurd (List.mem_map_of_mem _ h) hnotin
      · rw [cacheLookup_cons_neg a as p.1 ha]
        exact ih h (List.nodup_cons.1 hnd).2

/-- Puts with fresh keys into a mapping with room left are plain appends. -/
theorem foldPuts_no_evict (ps : List (Str × Json × Nat)) (c : Cache)
    (hnd : (c.map (fun e => e.1) ++ ps.map (fun p => p.1)).Nodup)
    (hlen : c.length + ps.length ≤ MAX_CACHE_SIZE) :
    ps.foldl (fun c p => putCache c p.1 p.2.1 p.2.2) c
      = c ++ ps.map (fun p => (p.1, ⟨p.2.1, p.2.2⟩)) := by
  induction ps generalizing c with
  | nil => simp
  | cons p ps ih =>
    simp only [List.foldl_cons]
    have hdisj := List.disjoint_of_nodup_append hnd
    have hfresh : ∀ e ∈ c, e.1 ≠ p.1 := by
      intro e he hx
      refine hdisj (List.mem_map_of_mem _ he) ?_
      rw [List.map_cons, hx]
      exact List.mem_cons_self _ _
    have hput : putCache c p.1 p.2.1 p.2.2 = c ++ [(p.1, ⟨p.2.1, p.2.2⟩)] := by
      unfold putCache
      simp only [cacheInsert_fresh c _ _ hfresh]
      rw [if_neg]
      rw [List.length_append]
      simp only [List.length_cons, List.length_nil, MAX_CACHE_SIZE]
      simp only [List.length_cons, MAX_CACHE_SIZE] at hlen
      omega
    rw [hput, ih]
    · rw [List.append_assoc]
      rfl
    · have hre : c.map (fun e => e.1) ++ (p :: ps).map (fun p => p.1)
          = (c.map (fun e => e.1) ++ [p.1]) ++ ps.map (fun p => p.1) := by
        rw [List.append_assoc]
        rfl
      rw [hre] at hnd
      simp only [List.map_append, List.map_cons, List.map_nil]
      exact hnd
    · rw [List.length_append]
      simp only [List.length_cons] at hlen ⊢
      simp only [List.length_cons, List.length_nil]
      omega

/-- Filtering out a present element shortens the list. -/
theorem length_filter_lt {α : Type} (l : List α) (p : α → Bool)
    (x : α) (hx : x ∈ l) (hpx : p x = false) : (l.filter p).length < l.length := by
  induction l with
  | nil => cases hx
  | cons a as ih =>
    rcases List.mem_cons.1 hx with h | h
    · subst h
      rw [List.filter_cons_of_neg (by simp [hpx])]
      have := List.length_filter_le p as
      simp only [List.length_cons]
      omega
    · by_cases hpa : p a = true
      · rw [List.filter_cons_of_pos hpa]
        have := ih h
        simp only [List.length_cons]
        omega
      · rw [List.filter_cons_of_neg (by simpa using hpa)]
        have := ih h
        simp only [List.length_cons]
        omega

/-- One put never leaves the mapping above capacity. -/
theorem putCache_bound (c : Cache) (k : Str) (result : Json) (now : Nat)
    (h : c.length ≤ MAX_CACHE_SIZE) :
    (putCache c k result now).length ≤ MAX_CACHE_SIZE := by
  have hins := cacheInsert_length_le c k ⟨result, now⟩
  simp only [putCache]
  split
  case isTrue hgt =>
    split
    case h_1 heq =>
      rw [heq]
      simp
    case h_2 e es heq =>
      have hmem := oldestPair_mem e es
      have hlt := length_filter_lt (e :: es) (fun x => !(x.1 == oldestKey e es))
        (es.foldl (fun a b => if a.2.timestamp < b.2.timestamp then a else b) e)
        hmem (by simp [oldestKey])
      rw [heq] at hins hgt
      rw [heq]
      simp only [cacheErase]
      simp only [MAX_CACHE_SIZE] at h hgt ⊢
      omega
  case isFalse hle =>
    simp only [MAX_CACHE_SIZE] at hle ⊢
    omega

/-- C3. Eviction bound: 101 puts with pairwise-distinct keys into an empty
cache leave exactly 100 entries; the absent entry is one whose timestamp is
minimal among the 101 (all other puts remain retrievable); and in general a
put on a mapping within capacity stays within capacity. -/
theorem claim_C3 (ps : List (Str × Json × Nat)) (hlen : ps.length = 101)
    (hkeys : (ps.map (fun p => p.1)).Nodup) :
    ((ps.foldl (fun c p => putCache c p.1 p.2.1 p.2.2) []).length = 100 ∧
     ∃ p ∈ ps, cacheLookup (ps.foldl (fun c p => putCache c p.1 p.2.1 p.2.2) []) p.1 = none ∧
       (∀ q ∈ ps, p.2.2 ≤ q.2.2) ∧
       (∀ q ∈ ps, q.1 ≠ p.1 →
         cacheLookup (ps.foldl (fun c p => putCache c p.1 p.2.1 p.2.2) []) q.1
           = some ⟨q.2.1, q.2.2⟩)) ∧
    (∀ (c : Cache) (k : Str) (result : Json) (now : Nat),
      c.length ≤ MAX_CACHE_SIZE → (putCache c k result now).length ≤ MAX_CACHE_SIZE) := by
  refine ⟨?_, fun c k result now h => putCache_bound c k result now h⟩
  obtain ⟨z, hz⟩ : ∃ z, ps.drop 100 = [z] :=
    List.length_eq_one.1 (by rw [List.length_drop, hlen])
  have hsplit : ps = ps.take 100 ++ [z] := by
    rw [← hz]
    exact (List.take_append_drop 100 ps).symm
  have hAlen : (ps.take 100).length = 100 := by
    rw [List.length_take, hlen]
    omega
  have hkeys2 : ((ps.take 100).map (fun p => p.1) ++ [z.1]).Nodup := by
    have := hkeys
    rw [hsplit, List.map_append] at this
    simpa using this
  have hAnodup : ((ps.take 100).map (fun p => p.1)).Nodup := hkeys2.of_append_left
  have hzfresh : z.1 ∉ (ps.take 100).map (fun p => p.1) := by
    intro hmem
    exact (List.disjoint_of_nodup_append hkeys2) hmem (List.mem_cons_self _ _)
  have hfoldA : (ps.take 100).foldl (fun c p => putCache c p.1 p.2.1 p.2.2) []
      = (ps.take 100).map (fun p => (p.1, ⟨p.2.1, p.2.2⟩)) := by
    have := foldPuts_no_evict (ps.take 100) [] (by simpa using hAnodup)
      (by rw [hAlen]; simp [MAX_CACHE_SIZE])
    simpa using this
  have hins : cacheInsert ((ps.take 100).map (fun p => (p.1, ⟨p.2.1, p.2.2⟩))) z.1 ⟨z.2.1, z.2.2⟩
      = ps.map (fun p => (p.1, ⟨p.2.1, p.2.2⟩)) := by
    rw [cacheInsert_fresh]
    · conv_rhs => rw [hsplit]
      rw [List.map_append]
      rfl
    · intro e he hx
      rcases List.mem_map.1 he with ⟨a, ha, hae⟩
      apply hzfresh
      rw [← hx, ← hae]
      exact List.mem_map_of_mem _ ha
  have hC101len : (ps.map (fun p => (p.1, (⟨p.2.1, p.2.2⟩ : CacheEntry)))).length = 101 := by
    rw [List.length_map, hlen]
  have hC101keys : ((ps.map (fun p => (p.1, (⟨p.2.1, p.2.2⟩ : CacheEntry)))).map
      (fun e => e.1)).Nodup := by
    rw [List.map_map]
    exact hkeys
  rcases hC : ps.map (fun p => (p.1, (⟨p.2.1, p.2.2⟩ : CacheEntry))) with _ | ⟨e, es⟩
  · rw [hC] at hC101len
    simp at hC101len
  have hfold : ps.foldl (fun c p => putCache c p.1 p.2.1 p.2.2) []
      = cacheErase (e :: es) (oldestKey e es) := by
    conv_lhs => rw [hsplit]
    rw [List.foldl_append, hfoldA]
    simp only [List.foldl_cons, List.foldl_nil]
    simp only [putCache, hins, hC]
    have hcond : MAX_CACHE_SIZE < (e :: es).length := by
      rw [← hC, hC101len]
      simp [MAX_CACHE_SIZE]
    rw [if_pos hcond]
  have hmem : (es.foldl (fun a b => if a.2.timestamp < b.2.timestamp then a else b) e)
      ∈ e :: es := oldestPair_mem e es
  have hmem2 : (es.foldl (fun a b => if a.2.timestamp < b.2.timestamp then a else b) e)
      ∈ ps.map (fun p => (p.1, (⟨p.2.1, p.2.2⟩ : CacheEntry))) := by
    rw [hC]
    exact hmem
  rcases List.mem_map.1 hmem2 with ⟨p, hpmem, hpe⟩
  have hkeyp : oldestKey e es = p.1 := by
    rw [oldestKey, ← hpe]
  have hlen100 : (cacheErase (e :: es) (oldestKey e es)).length = 100 := by
    have herase := cacheErase_length (e :: es)
      (es.foldl (fun a b => if a.2.timestamp < b.2.timestamp then a else b) e) hmem
      (by rw [← hC]; exact hC101keys)
    have hlen101 : (e :: es).length = 101 := by rw [← hC]; exact hC101len
    rw [oldestKey]
    omega
  refine ⟨by rw [hfold]; exact hlen100, p, hpmem, ?_, ?_, ?_⟩
  · rw [hfold, ← hkeyp]
    exact cacheLookup_erase_self _ _
  · intro q hq
    have hqmem : (q.1, (⟨q.2.1, q.2.2⟩ : CacheEntry)) ∈ e :: es := by
      rw [← hC]
      exact List.mem_map_of_mem _ hq
    have hmin := oldestPair_min e es _ hqmem
    have hts : p.2.2
        = (es.foldl (fun a b => if a.2.timestamp < b.2.timestamp then a else b) e).2.timestamp := by
      rw [← hpe]
    rw [hts]
    exact hmin
  · intro q hq hne
    rw [hfold]
    have hql : cacheLookup (cacheErase (e :: es) (oldestKey e es)) q.1
        = cacheLookup (e :: es) q.1 :=
      cacheLookup_erase_ne _ _ _ (by rw [hkeyp]; exact hne)
    rw [hql, ← hC]
    exact cacheLookup_mem _ (q.1, ⟨q.2.1, q.2.2⟩) (List.mem_map_of_mem _ hq) hC101keys

/-- Witness for C3: 101 puts with distinct single-character keys and
increasing timestamps leave exactly 100 entries. -/
theorem claim_C3_witness :
    (((List.range 101).map (fun i => (([Char.ofNat (5000 + i)] : Str), Json.null, i))).foldl
      (fun c p => putCache c p.1 p.2.1 p.2.2) []).length = 100 :=
  (claim_C3 ((List.range 101).map (fun i => (([Char.ofNat (5000 + i)] : Str), Json.null, i)))
    (by decide) (by decide)).1.1

/-! ## Cache key injectivity on the valid input space -/

/-- Enumeration of the sorted pairs. -/
theorem sorted_pair_mem_enum : ∀ a ∈ languageCodes, ∀ b ∈ languageCodes,
    a ≤ b → a ≠ b → ([a, b] : List Str) ∈ sortedLangLists := by decide

/-- Enumeration of the sorted triples. -/
theorem sorted_triple_mem_enum : ∀ a ∈ languageCodes, ∀ b ∈ languageCodes,
    ∀ c ∈ languageCodes, a ≤ b → b ≤ c → a ≠ b → b ≠ c →
    ([a, b, c] : List Str) ∈ sortedLangLists := by decide

/-- The sorted form of a valid language list is one of the twenty. -/
theorem sorted_mem_enum (l : List Str) (hs : List.Sorted (fun a b : Str => a ≤ b) l)
    (hn : l.Nodup) (hsub : ∀ x ∈ l, x ∈ languageCodes)
    (hl : l.length = 2 ∨ l.length = 3) : l ∈ sortedLangLists := by
  rcases hl with h2 | h3
  · obtain ⟨a, b, rfl⟩ := List.length_eq_two.1 h2
    have hab : a ≤ b := (List.pairwise_cons.1 hs).1 b (List.mem_cons_self _ _)
    have hne : a ≠ b := by
      intro hx
      exact (List.nodup_cons.1 hn).1 (by rw [hx]; exact List.mem_cons_self _ _)
    exact sorted_pair_mem_enum a (hsub a (by simp)) b (hsub b (by simp)) hab hne
  · obtain ⟨a, b, c, rfl⟩ := List.length_eq_three.1 h3
    have hab : a ≤ b := (List.pairwise_cons.1 hs).1 b (List.mem_cons_self _ _)
    have hbc : b ≤ c :=
      (List.pairwise_cons.1 (List.pairwise_cons.1 hs).2).1 c (List.mem_cons_self _ _)
    have hnab : a ≠ b := by
      intro hx
      exact (List.nodup_cons.1 hn).1 (by rw [hx]; exact List.mem_cons_self _ _)
    have hnbc : b ≠ c := by
      intro hx
      exact (List.nodup_cons.1 (List.nodup_cons.1 hn).2).1
        (by rw [hx]; exact List.mem_cons_self _ _)
    exact sorted_triple_mem_enum a (hsub a (by simp)) b (hsub b (by simp))
      c (hsub c (by simp)) hab hbc hnab hnbc

/-- Joining with commas is injective on the twenty sorted lists. -/
theorem enum_join_inj : ∀ x ∈ sortedLangLists, ∀ y ∈ sortedLangLists,
    List.intercalate (chars ",") x = List.intercalate (chars ",") y → x = y := by decide

/-- No joined sorted language list contains an underscore. -/
theorem enum_no_underscore : ∀ x ∈ sortedLangLists,
    '_' ∉ List.intercalate (chars ",") x := by decide

/-- Last element of a list from its getLast?. -/
theorem mem_of_getLast?_eq {α : Type} (l : List α) (x : α) (h : l.getLast? = some x) :
    x ∈ l := by
  rcases List.mem_getLast?_eq_getLast (show x ∈ l.getLast? by rw [h]; rfl) with ⟨hne, hx⟩
  rw [hx]
  exact List.getLast_mem hne

/-- Splitting at the separator "_to_" is unambiguous when the suffixes are
underscore-free and the shorter suffix is listed first. -/
theorem append_sep_inj_le (a b s1 s2 : List Char) (h1 : '_' ∉ s1) (h2 : '_' ∉ s2)
    (hle : s1.length ≤ s2.length)
    (h : a ++ chars "_to_" ++ s1 = b ++ chars "_to_" ++ s2) : a = b ∧ s1 = s2 := by
  have hs2 : s2 = s2.take (s2.length - s1.length) ++ s2.drop (s2.length - s1.length) :=
    (List.take_append_drop _ s2).symm
  have hdl : (s2.drop (s2.length - s1.length)).length = s1.length := by
    rw [List.length_drop]
    omega
  rw [hs2] at h
  have h' : (a ++ chars "_to_") ++ s1
      = ((b ++ chars "_to_") ++ s2.take (s2.length - s1.length))
        ++ s2.drop (s2.length - s1.length) := by
    rw [show ((b ++ chars "_to_") ++ s2.take (s2.length - s1.length))
        ++ s2.drop (s2.length - s1.length)
      = b ++ chars "_to_" ++ (s2.take (s2.length - s1.length)
        ++ s2.drop (s2.length - s1.length)) by simp [List.append_assoc]]
    exact h
  obtain ⟨hfront, hback⟩ := List.append_inj' h' (by rw [hdl])
  by_cases hk : s2.length - s1.length = 0
  · rw [hk] at hfront hback
    simp only [List.take_zero, List.append_nil] at hfront
    obtain ⟨hab, _⟩ := List.append_inj' hfront rfl
    refine ⟨hab, ?_⟩
    rw [hback]
    exact List.drop_zero s2
  · exfalso
    have htk : (s2.take (s2.length - s1.length)).length = s2.length - s1.length := by
      rw [List.length_take]
      omega
    have htne : s2.take (s2.length - s1.length) ≠ [] := by
      intro hx
      rw [hx] at htk
      simp at htk
      omega
    have hlast1 : (a ++ chars "_to_").getLast? = some '_' := by
      rw [show a ++ chars "_to_" = (a ++ chars "_to") ++ ['_'] by simp [chars, List.append_assoc]]
      exact List.getLast?_concat _
    have hlast2 : ((b ++ chars "_to_") ++ s2.take (s2.length - s1.length)).getLast?
        = (s2.take (s2.length - s1.length)).getLast? :=
      List.getLast?_append_of_ne_nil _ htne
    rw [hfront, hlast2] at hlast1
    exact h2 (List.take_subset _ _ (mem_of_getLast?_eq _ _ hlast1))

/-- Splitting at the separator "_to_" is unambiguous when the suffixes are
underscore-free. -/
theorem append_sep_inj (a b s1 s2 : List Char) (h1 : '_' ∉ s1) (h2 : '_' ∉ s2)
    (h : a ++ chars "_to_" ++ s1 = b ++ chars "_to_" ++ s2) : a = b ∧ s1 = s2 := by
  rcases le_total s1.length s2.length with hle | hle
  · exact append_sep_inj_le a b s1 s2 h1 h2 hle h
  · obtain ⟨hb, hs⟩ := append_sep_inj_le b a s2 s1 h2 h1 hle h.symm
    exact ⟨hb.symm, hs.symm⟩

/-- C10. Implicit cache key injectivity on valid inputs: for duplicate-free
lists of 2 or 3 of the five language codes, two queries collide on the same
cache key exactly when their normalized texts coincide and their language
sets coincide — despite the key being plain concatenation with "_to_". -/
theorem claim_C10 (t1 t2 : Str) (L1 L2 : List Str)
    (hsub1 : ∀ x ∈ L1, x ∈ languageCodes) (hn1 : L1.Nodup)
    (hl1 : L1.length = 2 ∨ L1.length = 3)
    (hsub2 : ∀ x ∈ L2, x ∈ languageCodes) (hn2 : L2.Nodup)
    (hl2 : L2.length = 2 ∨ L2.length = 3) :
    generateCacheKey t1 L1 = generateCacheKey t2 L2 ↔
      (normText t1 = normText t2 ∧ ∀ c : Str, c ∈ L1 ↔ c ∈ L2) := by
  constructor
  · intro h
    have hp1 := List.perm_insertionSort (fun a b : Str => a ≤ b) L1
    have hp2 := List.perm_insertionSort (fun a b : Str => a ≤ b) L2
    have hm1 : List.insertionSort (fun a b : Str => a ≤ b) L1 ∈ sortedLangLists :=
      sorted_mem_enum _ (List.sorted_insertionSort _ L1) (hp1.nodup_iff.2 hn1)
        (fun x hx => hsub1 x (hp1.subset hx)) (by rw [hp1.length_eq]; exact hl1)
    have hm2 : List.insertionSort (fun a b : Str => a ≤ b) L2 ∈ sortedLangLists :=
      sorted_mem_enum _ (List.sorted_insertionSort _ L2) (hp2.nodup_iff.2 hn2)
        (fun x hx => hsub2 x (hp2.subset hx)) (by rw [hp2.length_eq]; exact hl2)
    simp only [generateCacheKey] at h
    obtain ⟨hab, hcsv⟩ := append_sep_inj _ _ _ _
      (enum_no_underscore _ hm1) (enum_no_underscore _ hm2) h
    refine ⟨hab, ?_⟩
    have hsorteq := enum_join_inj _ hm1 _ hm2 hcsv
    intro c
    rw [← hp1.mem_iff, ← hp2.mem_iff, hsorteq]
  · rintro ⟨hn, hmem⟩
    have hperm : L1.Perm L2 := (List.perm_ext_iff_of_nodup hn1 hn2).2 hmem
    exact (generateCacheKey_norm t1 t2 L1 hn).trans (generateCacheKey_perm t2 L1 L2 hperm)

/-- Witness for C10 at concrete inputs: permuted language sets and a
case-perturbed text produce the same key. -/
theorem claim_C10_witness :
    generateCacheKey (chars "Hello") [chars "jp", chars "en"]
      = generateCacheKey (chars "hello") [chars "en", chars "jp"] :=
  (claim_C10 (chars "Hello") (chars "hello") [chars "jp", chars "en"] [chars "en", chars "jp"]
    (by decide) (by decide) (by decide) (by decide) (by decide) (by decide)).2
    ⟨by decide,
     fun c => ((by decide : ([chars "jp", chars "en"] : List Str).Perm
        [chars "en", chars "jp"])).mem_iff⟩

/-! ## Orchestrator control-flow lemmas -/

/-- A cache miss with a resolving model call whose text parses and whose
cleanup succeeds returns the cleaned result, freshly cached. -/
theorem ta_miss_live (text : Str) (targetLangs : List Str) (blob : CacheBlob)
    (ak : Str) (text? : Option Str) (now : Nat) (writeOk : Bool) (j j' : Json)
    (hmiss : cacheLookup (getCache blob) (generateCacheKey text targetLangs) = none)
    (hparse : jsonParse (responseJsonStr text?) = some j)
    (hclean : cleanupResult j = .ok j') :
    translateAndAnalyze text targetLangs blob (some ak) (.returns text?) now writeOk
      = .ok ⟨j', false, setCache blob (generateCacheKey text targetLangs) j' now writeOk, 1⟩ := by
  simp only [translateAndAnalyze, hmiss, hparse, hclean]

/-- A cache miss whose response text fails to parse raises the classified
syntax error and leaves the blob untouched. -/
theorem ta_miss_parsefail (text : Str) (targetLangs : List Str) (blob : CacheBlob)
    (ak : Str) (text? : Option Str) (now : Nat) (writeOk : Bool)
    (hmiss : cacheLookup (getCache blob) (generateCacheKey text targetLangs) = none)
    (hparse : jsonParse (responseJsonStr text?) = none) :
    translateAndAnalyze text targetLangs blob (some ak) (.returns text?) now writeOk
      = .error (classifyMsg syntaxErrorMsg) blob 1 := by
  simp only [translateAndAnalyze, hmiss, hparse]

/-- A cache miss with a rejecting model call raises the classified message. -/
theorem ta_miss_throws (text : Str) (targetLangs : List Str) (blob : CacheBlob)
    (ak : Str) (msg : Str) (now : Nat) (writeOk : Bool)
    (hmiss : cacheLookup (getCache blob) (generateCacheKey text targetLangs) = none) :
    translateAndAnalyze text targetLangs blob (some ak) (.throws msg) now writeOk
      = .error (classifyMsg msg) blob 1 := by
  simp only [translateAndAnalyze, hmiss]

/-- A cache miss without a credential raises the classified getAI message
before any model call. -/
theorem ta_miss_nokey (text : Str) (targetLangs : List Str) (blob : CacheBlob)
    (api : ApiOutcome) (now : Nat) (writeOk : Bool)
    (hmiss : cacheLookup (getCache blob) (generateCacheKey text targetLangs) = none) :
    translateAndAnalyze text targetLangs blob none api now writeOk
      = .error (classifyMsg missingKeyMsg) blob 0 := by
  simp only [translateAndAnalyze, hmiss]

/-- One translateAndAnalyze call invokes the model at most once. -/
theorem ta_calls_le_one (text : Str) (targetLangs : List Str) (blob : CacheBlob)
    (apiKey : Option Str) (api : ApiOutcome) (now : Nat) (writeOk : Bool) :
    (translateAndAnalyze text targetLangs blob apiKey api now writeOk).calls ≤ 1 := by
  rcases h : cacheLookup (getCache blob) (generateCacheKey text targetLangs) with _ | entry
  · rcases apiKey with _ | ak
    · simp [translateAndAnalyze, h, TAOutcome.calls]
    · rcases api with msg | text?
      · simp [translateAndAnalyze, h, TAOutcome.calls]
      · rcases hp : jsonParse (responseJsonStr text?) with _ | j
        · simp [translateAndAnalyze, h, hp, TAOutcome.calls]
        · rcases hc : cleanupResult j with m | j2 <;>
            simp [translateAndAnalyze, h, hp, hc, TAOutcome.calls]
  · simp [translateAndAnalyze, h, TAOutcome.calls]

/-! ## Segment cleanup -/

/-- Cleanup of one well-shaped segment: brackets stripped from `text`,
`ruby` untouched. -/
theorem cleanSegment_encode (s : PhoneticSegment) :
    cleanSegment (encodeSegment s) = .ok (encodeSegment (cleanSegmentT s)) := by
  obtain ⟨t, r⟩ := s
  cases r <;> rfl

/-- Cleanup of a whole well-shaped segment list. -/
theorem mapM_cleanSegment (l : List PhoneticSegment) :
    (l.map encodeSegment).mapM cleanSegment
      = Except.ok (l.map (fun s => encodeSegment (cleanSegmentT s))) := by
  induction l with
  | nil => rfl
  | cons s rest ih =>
    rw [List.map_cons, List.mapM_cons, cleanSegment_encode, ih]
    rfl

/-- On every well-shaped TranslationResult the cleanup succeeds and strips
brackets from the `text` member of every `jp` and `zh` segment, keeping every
`ruby` member and every other field unchanged. -/
theorem fieldKeyFacts :
    ((chars "detectedLanguage" == chars "jp") = false ∧ (chars "en" == chars "jp") = false ∧
     (chars "jp" == chars "jp") = true ∧ (chars "zh" == chars "jp") = false ∧
     (chars "mm" == chars "jp") = false ∧ (chars "vi" == chars "jp") = false) ∧
    ((chars "detectedLanguage" == chars "zh") = false ∧ (chars "en" == chars "zh") = false ∧
     (chars "jp" == chars "zh") = false ∧ (chars "zh" == chars "zh") = true ∧
     (chars "mm" == chars "zh") = false ∧ (chars "vi" == chars "zh") = false) := by decide

/-- The mapM loop on a well-shaped segment list. -/
theorem mapM_loop_cleanSegment (l : List PhoneticSegment) (acc : List Json) :
    List.mapM.loop cleanSegment (l.map encodeSegment) acc
      = Except.ok (acc.reverse ++ l.map (fun s => encodeSegment (cleanSegmentT s))) := by
  induction l generalizing acc with
  | nil => simp [List.mapM.loop, pure, Except.pure]
  | cons a as ih =>
    simp only [List.map_cons, List.mapM.loop, cleanSegment_encode]
    show List.mapM.loop cleanSegment (List.map encodeSegment as)
      (encodeSegment (cleanSegmentT a) :: acc) = _
    rw [ih]
    simp

/-- Propositional forms of the key comparisons. -/
theorem fieldKeyFactsP :
    (chars "detectedLanguage" ≠ chars "jp" ∧ chars "en" ≠ chars "jp" ∧
     chars "zh" ≠ chars "jp" ∧ chars "mm" ≠ chars "jp" ∧ chars "vi" ≠ chars "jp") ∧
    (chars "detectedLanguage" ≠ chars "zh" ∧ chars "en" ≠ chars "zh" ∧
     chars "jp" ≠ chars "zh" ∧ chars "mm" ≠ chars "zh" ∧ chars "vi" ≠ chars "zh") := by decide

theorem cleanupResult_encode (t : TranslationResult) :
    cleanupResult (encodeResult t) = .ok (encodeResult (cleanResultT t)) := by
  obtain ⟨⟨k1, k2, k3, k4, k5, k6⟩, ⟨m1, m2, m3, m4, m5, m6⟩⟩ := fieldKeyFacts
  obtain ⟨⟨p1, p2, p3, p4, p5⟩, ⟨q1, q2, q3, q4, q5⟩⟩ := fieldKeyFactsP
  obtain ⟨dl, en, jp, zh, mm, vi⟩ := t
  cases en <;> cases jp <;> cases zh <;> cases mm <;> cases vi <;>
    simp only [cleanupResult, cleanupField, encodeResult, cleanResultT, optStrField,
      optSegField, objLookup, objSet, truthy, List.find?, List.any, List.map,
      Option.map, mapM_cleanSegment, Except.map, List.cons_append, List.nil_append,
      k1, k2, k3, k4, k5, k6, m1, m2, m3, m4, m5, m6] <;>
    simp [cleanupField, objLookup, objSet, truthy, List.find?, List.any,
      mapM_cleanSegment, mapM_loop_cleanSegment, List.map_map, Function.comp,
      k1, k2, k3, k4, k5, k6, m1, m2, m3, m4, m5, m6,
      p1, p2, p3, p4, p5, q1, q2, q3, q4, q5]

/-! ## Claims C4 to C9 -/

/-- C4. Segment cleanup: before a live result is cached and returned, every
bracket-delimited run (ASCII or full-width) is removed from the `text` member
of each `jp` and `zh` segment while `ruby` is untouched; in particular the
segment with text "日本語(にほんご)" and ruby "にほんご" becomes text "日本語"
with the same ruby; and the orchestrator returns and caches exactly the
cleaned result on the live path. -/
theorem claim_C4 :
    (∀ t : TranslationResult,
       cleanupResult (encodeResult t) = .ok (encodeResult (cleanResultT t))) ∧
    (cleanSegment (encodeSegment ⟨chars "日本語(にほんご)", some (chars "にほんご")⟩)
       = .ok (encodeSegment ⟨chars "日本語", some (chars "にほんご")⟩)) ∧
    (∀ (text : Str) (targetLangs : List Str) (blob : CacheBlob) (ak : Str)
       (text? : Option Str) (now : Nat) (writeOk : Bool) (j j' : Json),
       cacheLookup (getCache blob) (generateCacheKey text targetLangs) = none →
       jsonParse (responseJsonStr text?) = some j →
       cleanupResult j = .ok j' →
       translateAndAnalyze text targetLangs blob (some ak) (.returns text?) now writeOk
         = .ok ⟨j', false, setCache blob (generateCacheKey text targetLangs) j' now writeOk, 1⟩) :=
  ⟨cleanupResult_encode, rfl,
   fun text targetLangs blob ak text? now writeOk j j' hmiss hparse hclean =>
     ta_miss_live text targetLangs blob ak text? now writeOk j j' hmiss hparse hclean⟩

/-- Witness for C4: a live call whose response carries the example segment
returns and caches the cleaned segment. -/
theorem claim_C4_witness :
    translateAndAnalyze (chars "hi") [chars "en", chars "jp"] .absent (some (chars "k"))
      (.returns (some (chars "\x7b\"jp\":[\x7b\"text\":\"日本語(にほんご)\",\"ruby\":\"にほんご\"\x7d]\x7d")))
      3 true
      = .ok ⟨Json.obj [(chars "jp", Json.arr [Json.obj
            [(chars "text", Json.str (chars "日本語")), (chars "ruby", Json.str (chars "にほんご"))]])],
          false,
          setCache .absent (generateCacheKey (chars "hi") [chars "en", chars "jp"])
            (Json.obj [(chars "jp", Json.arr [Json.obj
              [(chars "text", Json.str (chars "日本語")), (chars "ruby", Json.str (chars "にほんご"))]])])
            3 true, 1⟩ :=
  claim_C4.2.2 (chars "hi") [chars "en", chars "jp"] .absent (chars "k")
    (some (chars "\x7b\"jp\":[\x7b\"text\":\"日本語(にほんご)\",\"ruby\":\"にほんご\"\x7d]\x7d"))
    3 true
    (Json.obj [(chars "jp", Json.arr [Json.obj
      [(chars "text", Json.str (chars "日本語(にほんご)")), (chars "ruby", Json.str (chars "にほんご"))]])])
    (Json.obj [(chars "jp", Json.arr [Json.obj
      [(chars "text", Json.str (chars "日本語")), (chars "ruby", Json.str (chars "にほんご"))]])])
    rfl rfl rfl

/-- C5 counterexample: the response body consisting of the empty JSON object
parses as JSON but is not a TranslationResult (no detectedLanguage), yet
translateAndAnalyze returns it coerced with no error and writes it into the
cache — the claim that every response that does not parse into a
TranslationResult raises an error is false. -/
theorem claim_C5_counterexample :
    (∀ t : TranslationResult, encodeResult t ≠ Json.obj []) ∧
    translateAndAnalyze (chars "hello") [chars "en", chars "jp"] .absent (some (chars "k"))
      (.returns (some (chars "\x7b\x7d"))) 0 true
      = .ok ⟨Json.obj [], false,
          .valid [(generateCacheKey (chars "hello") [chars "en", chars "jp"],
            ⟨Json.obj [], 0⟩)], 1⟩ :=
  ⟨fun t h => by simp [encodeResult] at h, rfl⟩

/-- C5 amended. A response text on which JSON parsing fails raises a hard
error to the caller and leaves the cache blob unchanged; but a JSON-parseable
body is never validated against the TranslationResult shape — it is cleaned,
cached, and returned as-is. -/
theorem claim_C5_amended :
    (∀ (text : Str) (targetLangs : List Str) (blob : CacheBlob) (ak : Str)
       (text? : Option Str) (now : Nat) (writeOk : Bool),
       cacheLookup (getCache blob) (generateCacheKey text targetLangs) = none →
       jsonParse (responseJsonStr text?) = none →
       translateAndAnalyze text targetLangs blob (some ak) (.returns text?) now writeOk
         = .error (classifyMsg syntaxErrorMsg) blob 1) ∧
    (∀ (text : Str) (targetLangs : List Str) (blob : CacheBlob) (ak : Str)
       (text? : Option Str) (now : Nat) (writeOk : Bool) (j j' : Json),
       cacheLookup (getCache blob) (generateCacheKey text targetLangs) = none →
       jsonParse (responseJsonStr text?) = some j →
       cleanupResult j = .ok j' →
       translateAndAnalyze text targetLangs blob (some ak) (.returns text?) now writeOk
         = .ok ⟨j', false, setCache blob (generateCacheKey text targetLangs) j' now writeOk, 1⟩) :=
  ⟨fun text targetLangs blob ak text? now writeOk hmiss hparse =>
     ta_miss_parsefail text targetLangs blob ak text? now writeOk hmiss hparse,
   fun text targetLangs blob ak text? now writeOk j j' hmiss hparse hclean =>
     ta_miss_live text targetLangs blob ak text? now writeOk j j' hmiss hparse hclean⟩

/-- Witness for the amended C5: an unparseable body raises the syntax error
and the blob is unchanged. -/
theorem claim_C5_witness :
    translateAndAnalyze (chars "hello") [chars "en", chars "jp"] .absent (some (chars "k"))
      (.returns (some (chars "not json"))) 0 true
      = .error (classifyMsg syntaxErrorMsg) .absent 1 :=
  claim_C5_amended.1 (chars "hello") [chars "en", chars "jp"] .absent (chars "k")
    (some (chars "not json")) 0 true rfl rfl

/-- C6 counterexample: with the credential absent at call time (and a cache
miss) the surfaced error carries the getAI message naming GEMINI_API_KEY, not
an error tagged CONFIGURATION. -/
theorem claim_C6_counterexample :
    translateAndAnalyze (chars "hi") [chars "en", chars "jp"] .absent none (.returns none) 0 true
      = .error missingKeyMsg .absent 0 ∧ missingKeyMsg ≠ chars "CONFIGURATION" :=
  ⟨rfl, by decide⟩

/-- C6 amended. On a cache miss: an underlying failure whose lowercased
message contains "quota", "429" or "limit" is surfaced as an error with
message "RATE_LIMIT"; a missing credential is surfaced (before any model
call) as an error whose message contains "GEMINI_API_KEY"; every other
failure propagates with its underlying message; and a single call never
invokes the model more than once (no automatic retry). -/
theorem claim_C6_amended :
    (∀ (text : Str) (targetLangs : List Str) (blob : CacheBlob) (ak msg : Str)
       (now : Nat) (writeOk : Bool),
       cacheLookup (getCache blob) (generateCacheKey text targetLangs) = none →
       isRateLimitMsg msg = true →
       translateAndAnalyze text targetLangs blob (some ak) (.throws msg) now writeOk
         = .error (chars "RATE_LIMIT") blob 1) ∧
    (∀ (text : Str) (targetLangs : List Str) (blob : CacheBlob) (api : ApiOutcome)
       (now : Nat) (writeOk : Bool),
       cacheLookup (getCache blob) (generateCacheKey text targetLangs) = none →
       translateAndAnalyze text targetLangs blob none api now writeOk
         = .error missingKeyMsg blob 0
         ∧ strIncludes missingKeyMsg (chars "GEMINI_API_KEY") = true) ∧
    (∀ (text : Str) (targetLangs : List Str) (blob : CacheBlob) (ak msg : Str)
       (now : Nat) (writeOk : Bool),
       cacheLookup (getCache blob) (generateCacheKey text targetLangs) = none →
       isRateLimitMsg msg = false →
       translateAndAnalyze text targetLangs blob (some ak) (.throws msg) now writeOk
         = .error msg blob 1) ∧
    (∀ (text : Str) (targetLangs : List Str) (blob : CacheBlob) (apiKey : Option Str)
       (api : ApiOutcome) (now : Nat) (writeOk : Bool),
       (translateAndAnalyze text targetLangs blob apiKey api now writeOk).calls ≤ 1) := by
  refine ⟨?_, ?_, ?_, ta_calls_le_one⟩
  · intro text targetLangs blob ak msg now writeOk hmiss hm
    rw [ta_miss_throws text targetLangs blob ak msg now writeOk hmiss]
    simp only [classifyMsg, hm, if_true]
  · intro text targetLangs blob api now writeOk hmiss
    exact ⟨ta_miss_nokey text targetLangs blob api now writeOk hmiss, rfl⟩
  · intro text targetLangs blob ak msg now writeOk hmiss hm
    rw [ta_miss_throws text targetLangs blob ak msg now writeOk hmiss]
    simp only [classifyMsg, hm, Bool.false_eq_true, if_false]

/-- Witness for the amended C6: a thrown 429-style failure surfaces as
RATE_LIMIT. -/
theorem claim_C6_witness :
    translateAndAnalyze (chars "hi") [chars "en", chars "jp"] .absent (some (chars "k"))
      (.throws (chars "Error 429: resource exhausted")) 0 true
      = .error (chars "RATE_LIMIT") .absent 1 :=
  claim_C6_amended.1 (chars "hi") [chars "en", chars "jp"] .absent (chars "k")
    (chars "Error 429: resource exhausted") 0 true rfl rfl

/-- C7. Cache failure recovery: a corrupt or absent blob reads as the empty
mapping; with a corrupt blob the orchestrator proceeds with a live model call
and still returns the fresh result; and a failing write is swallowed — the
call still returns the fresh result with the blob left unchanged. -/
theorem claim_C7 :
    (getCache .corrupt = [] ∧ getCache .absent = []) ∧
    (∀ (text : Str) (targetLangs : List Str) (ak : Str) (text? : Option Str)
       (now : Nat) (writeOk : Bool) (j j' : Json),
       jsonParse (responseJsonStr text?) = some j →
       cleanupResult j = .ok j' →
       translateAndAnalyze text targetLangs .corrupt (some ak) (.returns text?) now writeOk
         = .ok ⟨j', false,
             setCache .corrupt (generateCacheKey text targetLangs) j' now writeOk, 1⟩) ∧
    (∀ (text : Str) (targetLangs : List Str) (blob : CacheBlob) (ak : Str)
       (text? : Option Str) (now : Nat) (j j' : Json),
       cacheLookup (getCache blob) (generateCacheKey text targetLangs) = none →
       jsonParse (responseJsonStr text?) = some j →
       cleanupResult j = .ok j' →
       translateAndAnalyze text targetLangs blob (some ak) (.returns text?) now false
         = .ok ⟨j', false, blob, 1⟩) :=
  ⟨⟨rfl, rfl⟩,
   fun text targetLangs ak text? now writeOk j j' hparse hclean =>
     ta_miss_live text targetLangs .corrupt ak text? now writeOk j j' rfl hparse hclean,
   fun text targetLangs blob ak text? now j j' hmiss hparse hclean =>
     ta_miss_live text targetLangs blob ak text? now false j j' hmiss hparse hclean⟩

/-- Witness for C7: with a corrupt blob the call goes live and succeeds. -/
theorem claim_C7_witness :
    translateAndAnalyze (chars "hi") [chars "en", chars "jp"] .corrupt (some (chars "k"))
      (.returns (some (chars "\x7b\x7d"))) 0 true
      = .ok ⟨Json.obj [], false,
          setCache .corrupt (generateCacheKey (chars "hi") [chars "en", chars "jp"])
            (Json.obj []) 0 true, 1⟩ :=
  claim_C7.2.1 (chars "hi") [chars "en", chars "jp"] (chars "k") (some (chars "\x7b\x7d"))
    0 true (Json.obj []) (Json.obj []) rfl rfl

/-- The duplicate test in propositional form. -/
theorem isDuplicate_iff (history : List HistoryItem) (inputText : Str) (result : Json) :
    isDuplicate history inputText result = true ↔
      ∃ h ∈ history, normText h.originalText = normText inputText ∧
        Json.stringify h.results = Json.stringify result := by
  simp [isDuplicate, List.any_eq_true, Bool.and_eq_true, beq_iff_eq]

/-- C8. History duplicate suppression: when some existing item matches the
input text modulo trimming and lowercasing and has byte-identical serialized
results, the history is left entirely unchanged; otherwise the new item is
prepended (to the first 49 existing items). -/
theorem claim_C8 :
    (∀ (history : List HistoryItem) (inputText : Str) (result : Json) (newId : Str) (now : Nat),
       (∃ h ∈ history, normText h.originalText = normText inputText ∧
          Json.stringify h.results = Json.stringify result) →
       updateHistory history inputText result newId now = history) ∧
    (∀ (history : List HistoryItem) (inputText : Str) (result : Json) (newId : Str) (now : Nat),
       (¬ ∃ h ∈ history, normText h.originalText = normText inputText ∧
          Json.stringify h.results = Json.stringify result) →
       updateHistory history inputText result newId now
         = ⟨newId, now, inputText, jsonField result (chars "detectedLanguage"), result⟩
             :: history.take 49) :=
  ⟨fun history inputText result newId now hdup => by
     simp only [updateHistory]
     rw [if_pos ((isDuplicate_iff history inputText result).2 hdup)],
   fun history inputText result newId now hnot => by
     simp only [updateHistory]
     rw [if_neg (fun hd => hnot ((isDuplicate_iff history inputText result).1 hd))]⟩

/-- Witness for C8: re-translating the same text with an identical serialized
result leaves a one-item history untouched. -/
theorem claim_C8_witness :
    updateHistory [⟨chars "id1", 0, chars "Hi", none, Json.null⟩] (chars " hi ")
      Json.null (chars "id2") 5
      = [⟨chars "id1", 0, chars "Hi", none, Json.null⟩] :=
  claim_C8.1 [⟨chars "id1", 0, chars "Hi", none, Json.null⟩] (chars " hi ") Json.null
    (chars "id2") 5
    ⟨⟨chars "id1", 0, chars "Hi", none, Json.null⟩, List.mem_cons_self _ _, by decide, rfl⟩

/-- C9 counterexample: a resolving call whose schema-conformant response
holds six candidates is returned with all six entries — the code never
truncates to five; the bound is requested only in the prompt. -/
theorem claim_C9_counterexample :
    recognizeHandwriting (some (chars "k"))
      (.returns (some (chars "[\"a\",\"b\",\"c\",\"d\",\"e\",\"f\"]")))
      = Json.arr [Json.str (chars "a"), Json.str (chars "b"), Json.str (chars "c"),
          Json.str (chars "d"), Json.str (chars "e"), Json.str (chars "f")] ∧
    ¬ ([Json.str (chars "a"), Json.str (chars "b"), Json.str (chars "c"),
        Json.str (chars "d"), Json.str (chars "e"), Json.str (chars "f")].length ≤ 5) :=
  ⟨rfl, by decide⟩

/-- C9 amended. recognizeHandwriting never propagates an error: a missing
credential, a rejecting call, or an unparseable response text each yield the
empty array; on a parseable response it returns the parsed JSON value as-is,
with no enforced length bound. -/
theorem claim_C9_amended :
    (∀ api : ApiOutcome, recognizeHandwriting none api = Json.arr []) ∧
    (∀ (ak msg : Str), recognizeHandwriting (some ak) (.throws msg) = Json.arr []) ∧
    (∀ (ak : Str) (text? : Option Str),
       jsonParse (handwritingJsonStr text?) = none →
       recognizeHandwriting (some ak) (.returns text?) = Json.arr []) ∧
    (∀ (ak : Str) (text? : Option Str) (j : Json),
       jsonParse (handwritingJsonStr text?) = some j →
       recognizeHandwriting (some ak) (.returns text?) = j) :=
  ⟨fun _ => rfl, fun _ _ => rfl,
   fun ak text? h => by simp only [recognizeHandwriting, h],
   fun ak text? j h => by simp only [recognizeHandwriting, h]⟩

/-- Witness for the amended C9: an unparseable response text yields the
empty candidate array. -/
theorem claim_C9_witness :
    recognizeHandwriting (some (chars "k")) (.returns (some (chars "oops"))) = Json.arr [] :=
  claim_C9_amended.2.2.1 (chars "k") (some (chars "oops")) rfl
